import Mathlib

/-!
Verification of the LegalQA retrieval core (src/pods/my_executors.py).

The development shallowly embeds the algorithmic core of the repository:

* the similarity pipeline of `DocVectorIndexer.search`
  (`_norm`, `_ext_A`, `_ext_B`, `_cosine`, the emitted `cosine` score),
  modelled over `ℝ` (exact reals idealise the floating-point arithmetic;
  a separate NaN-propagating layer models the zero-norm corner exactly);
* the top-k selection `DocVectorIndexer._get_sorted_top_k`, modelled as a
  relation over the documented contract of `np.argsort` (result is sorted;
  the default quicksort kind is not stable, so tie order is unspecified)
  and `np.argpartition` (the first `kth` slots hold the `kth` smallest
  entries, in unspecified order);
* the stacking guard of `search` (`np.stack` raises on an empty sequence);
* `KeyValueIndexer.query` hydration over an identifier-keyed store;
* `WeightedRanker.rank` fusion of weighted match lists, with Python
  semantics for `zip(*docs_matrix)` tuple unpacking, insertion-ordered
  dictionaries, stable descending sort and slice truncation.

Rational scores (`ℚ`) are used where the code only adds, multiplies and
compares, so that the ranker and selection layers stay executable.
-/

namespace LegalQA

/-! ## Real-valued similarity pipeline (source lines 311-342) -/

/-- Sum of squared entries of a row; `np.linalg.norm(A, ord=2)` squared. -/
noncomputable def sumSq (l : List ℝ) : ℝ := (l.map (fun x => x ^ 2)).sum

/-- Dot product of two rows of equal length (`A.dot(B)` entrywise core). -/
noncomputable def dotR (x y : List ℝ) : ℝ := (List.zipWith (fun a b => a * b) x y).sum

/-- Row-wise L2 normalisation, `_norm`: `A / np.linalg.norm(A, ord=2, axis=1)`. -/
noncomputable def _norm (row : List ℝ) : List ℝ :=
  row.map (fun x => x / Real.sqrt (sumSq row))

/-- Augmented query row, `_ext_A`: `[ones, A, A**2]` blocks of one row. -/
noncomputable def _ext_A (a : List ℝ) : List ℝ :=
  List.replicate a.length 1 ++ a ++ a.map (fun x => x ^ 2)

/-- Augmented corpus column, `_ext_B`: `[(B**2).T, -2.0*B.T, ones]` blocks. -/
noncomputable def _ext_B (b : List ℝ) : List ℝ :=
  b.map (fun x => x ^ 2) ++ b.map (fun x => -2 * x) ++ List.replicate b.length 1

/-- One entry of `_cosine`: `A_norm_ext.dot(B_norm_ext).clip(min=0) / 2`. -/
noncomputable def _cosine (x y : List ℝ) : ℝ := max (dotR x y) 0 / 2

/-- Score attached by `search`: `d.scores['cosine'] = 1 - _dist`, where the
distance entry is `_cosine(_ext_A(_norm(a)), _ext_B(_norm(b)))`. -/
noncomputable def scoreOf (q d : List ℝ) : ℝ :=
  1 - _cosine (_ext_A (_norm q)) (_ext_B (_norm d))

/-- Modelled from the spec: the direct batched cosine similarity
`dot(q-hat, d-hat)` of the L2-normalised vectors, the formulation the spec
names as the preferred replacement of the augmented-matrix trick. -/
noncomputable def specCosine (q d : List ℝ) : ℝ := dotR (_norm q) (_norm d)

/-! ## NaN-propagating layer for the zero-norm corner of `search`

IEEE float semantics of the source: dividing a zero row by its zero L2 norm
yields `0/0 = NaN` in every component (a zero L2 norm forces every entry of
the row to be zero, so the `nonzero/0 = inf` case cannot arise inside
`_norm`), and NaN propagates through products, sums and `clip`. `none`
models NaN. -/

/-- Scalar that is either a real value or NaN (`none`). -/
abbrev NanR := Option ℝ

/-- NaN-propagating addition. -/
def nadd : NanR → NanR → NanR
  | some a, some b => some (a + b)
  | _, _ => none

/-- NaN-propagating multiplication. -/
def nmul : NanR → NanR → NanR
  | some a, some b => some (a * b)
  | _, _ => none

/-- NaN-propagating `clip(min=0)`; `np.clip` keeps NaN as NaN. -/
noncomputable def nclip0 : NanR → NanR
  | some a => some (max a 0)
  | none => none

/-- NaN-propagating halving, the `/ 2` of `_cosine`. -/
noncomputable def nhalf : NanR → NanR
  | some a => some (a / 2)
  | none => none

/-- Sum of a list of NaN-propagating scalars. -/
def nsum (l : List NanR) : NanR := l.foldr nadd (some 0)

/-- Dot product over NaN-propagating scalars. -/
def ndot (x y : List NanR) : NanR := nsum (List.zipWith nmul x y)

/-- Float division `x / s` as used inside `_norm`: NaN when the norm `s` is
zero (then `x = 0` on every reachable input, and `0/0` is NaN). -/
noncomputable def npDiv (x s : ℝ) : NanR := if s = 0 then none else some (x / s)

/-- The `_norm` row with float zero-division semantics. -/
noncomputable def normNan (row : List ℝ) : List NanR :=
  row.map (fun x => npDiv x (Real.sqrt (sumSq row)))

/-- The `_ext_A` blocks over NaN-propagating scalars. -/
def extAN (a : List NanR) : List NanR :=
  List.replicate a.length (some 1) ++ a ++ a.map (fun x => nmul x x)

/-- The `_ext_B` blocks over NaN-propagating scalars. -/
def extBN (b : List NanR) : List NanR :=
  b.map (fun x => nmul x x) ++ b.map (fun x => nmul (some (-2)) x) ++
    List.replicate b.length (some 1)

/-- One entry of the `dists` matrix of `search`, zero-norm rows included. -/
noncomputable def distN (q d : List ℝ) : NanR :=
  nhalf (nclip0 (ndot (extAN (normNan q)) (extBN (normNan d))))

/-- Errors raised by `np.stack` at the head of `search`: an empty sequence
of arrays ("need at least one array to stack") or ragged row shapes. -/
inductive NpError where
  | stackEmpty
  | stackShape
deriving DecidableEq

/-- Model of `np.stack` on a list of 1-D rows. -/
def npStack (rows : List (List ℝ)) : Except NpError (List (List ℝ)) :=
  match rows with
  | [] => .error .stackEmpty
  | r :: rs => if rs.all (fun s => s.length = r.length) then .ok (r :: rs)
               else .error .stackShape

/-- Deterministic head of `DocVectorIndexer.search`: the `docs is None`
early return, the two `np.stack` calls, and the `dists` matrix
`_cosine(_ext_A(_norm(a)), _ext_B(_norm(b)))`.  The subsequent top-k
selection is modelled separately (relationally) because numpy leaves the
tie order of `argsort`/`argpartition` unspecified. -/
noncomputable def searchDists (docs : Option (List (List ℝ)))
    (corpus : List (List ℝ)) : Except NpError (Option (List (List NanR))) :=
  match docs with
  | none => .ok none
  | some qs =>
    match npStack qs with
    | .error e => .error e
    | .ok a =>
      match npStack corpus with
      | .error e => .error e
      | .ok b => .ok (some (a.map (fun q => b.map (fun d => distN q d))))

/-! ## Top-k selection (`DocVectorIndexer._get_sorted_top_k`)

The source selects per row with `argsort` (branch `top_k >= N`) or
`argpartition` followed by `argsort` of the selected block (branch
`top_k < N`).  numpy documents for the default `kind='quicksort'` that the
sort is not stable, and for `argpartition` that the order of the elements
inside each partition is undefined; the embedding therefore models both
primitives by their documented contracts, as relations. -/

/-- Value of a row at an index (rows are only ever indexed in bounds). -/
def valAt [Inhabited α] (row : List α) (i : ℕ) : α := row.getD i default

/-- Contract of `np.argsort` on one row: a permutation of all indices whose
value sequence is sorted.  Tie order is unspecified. -/
def isArgsort (le : α → α → Prop) [Inhabited α] (row : List α)
    (idx : List ℕ) : Prop :=
  idx.Perm (List.range row.length) ∧
  idx.Chain' (fun i j => le (valAt row i) (valAt row j))

/-- Contract of `np.argpartition(kth=k)[:k]`: `k` distinct in-range indices
whose values are below every unselected value.  Order is undefined. -/
def partitionFront (le : α → α → Prop) [Inhabited α] (row : List α)
    (k : ℕ) (idx : List ℕ) : Prop :=
  idx.length = k ∧ idx.Nodup ∧ (∀ i ∈ idx, i < row.length) ∧
  ∀ i ∈ idx, ∀ j, j < row.length → j ∉ idx → le (valAt row i) (valAt row j)

/-- Relational model of `_get_sorted_top_k` on one row of `dists`: the
returned index row together with its distance row.  The `top_k >= N`
branch truncates a full `argsort`; the `top_k < N` branch reorders an
`argpartition` front into sorted order. -/
def _get_sorted_top_k (le : α → α → Prop) [Inhabited α] (row : List α)
    (top_k : ℕ) (idx : List ℕ) (dist : List α) : Prop :=
  dist = idx.map (valAt row) ∧
  (if row.length ≤ top_k then
    ∃ full, isArgsort le row full ∧ idx = full.take top_k
  else
    (∃ part, partitionFront le row top_k part ∧ idx.Perm part) ∧
    idx.Chain' (fun i j => le (valAt row i) (valAt row j)))

/-- Order in which numpy sorts NaN-propagating values: NaN sorts last. -/
def nanLe : NanR → NanR → Prop
  | _, none => True
  | none, some _ => False
  | some a, some b => a ≤ b

/-! ## Rank fusion (`WeightedRanker.rank`, source lines 270-307)

Scores are exact rationals: the ranker only multiplies, adds and compares
them.  `final_matches` is a Python dict keyed by `parent_id`; dicts keep
the position of the first insertion and assignment to an existing key
replaces the value in place, which an association list models. -/

/-- One match entering the ranker: its parent identifier, its `cosine`
score, and a stand-in for the remaining non-score payload fields. -/
structure RMatch where
  parentId : String
  cosine : ℚ
  text : String
deriving DecidableEq

/-- One `final_matches` entry: the mutable `relevance` score plus the
copied match document it was first created from. -/
structure FusedDoc where
  relevance : ℚ
  doc : RMatch
deriving DecidableEq

/-- One per-branch query document: its `weight` and its match list. -/
structure QueryDoc where
  weight : ℚ
  matchList : List RMatch
deriving DecidableEq

instance : Inhabited QueryDoc := ⟨⟨0, []⟩⟩

/-- Branch-1 loop body: `m.scores['relevance'] = cos * w;
final_matches[m.parent_id] = Document(m, copy=True)` — an unconditional
assignment, so an existing entry for the same parent id is replaced. -/
def upsert1 (w : ℚ) (acc : List FusedDoc) (m : RMatch) : List FusedDoc :=
  if acc.any (fun f => f.doc.parentId = m.parentId) then
    acc.map (fun f => if f.doc.parentId = m.parentId then ⟨m.cosine * w, m⟩ else f)
  else acc ++ [⟨m.cosine * w, m⟩]

/-- Branch-2 loop body: accumulate `cos * w` onto an existing entry, else
insert a fresh copy with relevance `cos * w`. -/
def upsert2 (w : ℚ) (acc : List FusedDoc) (m : RMatch) : List FusedDoc :=
  if acc.any (fun f => f.doc.parentId = m.parentId) then
    acc.map (fun f => if f.doc.parentId = m.parentId then
      ⟨f.relevance + m.cosine * w, f.doc⟩ else f)
  else acc ++ [⟨m.cosine * w, m⟩]

/-- The `final_matches` table after both branch loops of one query pair. -/
def fusedTable (d1 d2 : QueryDoc) : List FusedDoc :=
  d2.matchList.foldl (upsert2 d2.weight) (d1.matchList.foldl (upsert1 d1.weight) [])

/-- Stable descending insertion: an element moves past strictly smaller
relevances only, so equal relevances keep their incoming order — the
extensional behaviour of Python's stable `sort(key=..., reverse=True)`. -/
def insertDesc (f : FusedDoc) : List FusedDoc → List FusedDoc
  | [] => [f]
  | g :: gs => if f.relevance < g.relevance then g :: insertDesc f gs
               else f :: g :: gs

/-- The `da.sort(key=lambda ma: relevance, reverse=True)` result. -/
def sortDesc (l : List FusedDoc) : List FusedDoc := l.foldr insertDesc []

/-- Python slice `l[:k]` for a possibly negative `k`. -/
def pySlice (l : List α) (k : ℤ) : List α :=
  if 0 ≤ k then l.take k.toNat else l.take (l.length - (-k).toNat)

/-- Per-query body of `rank`: build the table, sort it descending by
relevance, truncate with `da[: int(parameters['top_k'])]`. -/
def fuseQuery (d1 d2 : QueryDoc) (top_k : ℤ) : List FusedDoc :=
  pySlice (sortDesc (fusedTable d1 d2)) top_k

/-- Python `zip(*docs_matrix)`: tuples of per-branch entries, truncated to
the shortest branch; `zip()` of an empty matrix is empty. -/
def zipStar [Inhabited α] (dm : List (List α)) : List (List α) :=
  match dm with
  | [] => []
  | l0 :: rest =>
    (List.range (rest.foldl (fun n l => min n l.length) l0.length)).map
      (fun i => (l0 :: rest).map (fun l => l.getD i default))

/-- Error of `for d_mod1, d_mod2 in zip(*docs_matrix)`: unpacking a tuple
whose arity is not 2 raises `ValueError`. -/
inductive RankErr where
  | unpack
deriving DecidableEq

/-- The loop of `rank` over the zipped tuples: each tuple must unpack into
exactly two branch documents, then the pair is fused. -/
def rankLoop (top_k : ℤ) : List (List QueryDoc) → Except RankErr (List (List FusedDoc))
  | [] => .ok []
  | t :: ts =>
    match t with
    | [d1, d2] =>
      match rankLoop top_k ts with
      | .ok rest => .ok (fuseQuery d1 d2 top_k :: rest)
      | .error e => .error e
    | _ => .error .unpack

/-- `WeightedRanker.rank`: zip the branches, then run the fusion loop. -/
def rank (dm : List (List QueryDoc)) (top_k : ℤ) :
    Except RankErr (List (List FusedDoc)) :=
  rankLoop top_k (zipStar dm)

/-- Last match of a list carrying a given parent id. -/
def lastWith (ms : List RMatch) (pid : String) : Option RMatch :=
  (ms.filter (fun m => m.parentId = pid)).getLast?

/-- First match of a list carrying a given parent id. -/
def firstWith (ms : List RMatch) (pid : String) : Option RMatch :=
  (ms.filter (fun m => m.parentId = pid)).head?

/-- Sum of the cosine scores of all matches with a given parent id. -/
def sumCos (ms : List RMatch) (pid : String) : ℚ :=
  ((ms.filter (fun m => m.parentId = pid)).map RMatch.cosine).sum

/-- First table entry stored under a parent id (dict point lookup). -/
def lookupPid (t : List FusedDoc) (pid : String) : Option FusedDoc :=
  t.find? (fun f => f.doc.parentId = pid)

/-- Closed form of the fused table entry of a parent id: the last branch-1
occurrence wins among branch-1 duplicates (dict assignment replaces), and
every branch-2 occurrence accumulates; the retained copy is the last
branch-1 occurrence, else the first branch-2 occurrence. -/
def fusedSpec (d1 d2 : QueryDoc) (pid : String) : Option FusedDoc :=
  match lastWith d1.matchList pid with
  | some m => some ⟨m.cosine * d1.weight + sumCos d2.matchList pid * d2.weight, m⟩
  | none =>
    match firstWith d2.matchList pid with
    | some m => some ⟨sumCos d2.matchList pid * d2.weight, m⟩
    | none => none

/-- Parent identifiers of a match list. -/
def parentIds (ms : List RMatch) : List String := ms.map (fun m => m.parentId)

/-- Dictionary keys of a fused table (the parent id of each entry). -/
def keysOf (t : List FusedDoc) : List String := t.map (fun f => f.doc.parentId)

/-! ## Key-value hydration (`KeyValueIndexer.query`, source lines 252-266) -/

/-- One record of the key-value store (`kv-idx`): identifier and payload. -/
structure KVDoc where
  id : String
  text : String
deriving DecidableEq

/-- One match to hydrate: its `parent_id` reference and its payload. -/
structure HMatch where
  parentId : String
  text : String
deriving DecidableEq

/-- Error of `self._docs[match.parent_id]` on a missing identifier. -/
inductive KVErr where
  | notFound (pid : String)
deriving DecidableEq

/-- Point lookup by identifier; on duplicate appends the store's id-to-slot
mapping is overwritten, so the last record with the id wins. -/
def kvGet (store : List KVDoc) (pid : String) : Except KVErr KVDoc :=
  match store.reverse.find? (fun d => d.id = pid) with
  | some d => .ok d
  | none => .error (.notFound pid)

/-- `match.update(extracted_doc)`: copy the stored record's payload fields
onto the match; a missing identifier raises. -/
def hydrateMatch (store : List KVDoc) (m : HMatch) : Except KVErr HMatch :=
  match kvGet store m.parentId with
  | .ok d => .ok { m with text := d.text }
  | .error e => .error e

/-- Inner loop of `query` over one document's matches; the first lookup
failure aborts. -/
def hydrateAll (store : List KVDoc) : List HMatch → Except KVErr (List HMatch)
  | [] => .ok []
  | m :: ms =>
    match hydrateMatch store m with
    | .ok m2 =>
      match hydrateAll store ms with
      | .ok rest => .ok (m2 :: rest)
      | .error e => .error e
    | .error e => .error e

/-- `KeyValueIndexer.query`: hydrate every match of every document of the
request batch; an unhandled lookup failure aborts the whole batch. -/
def kvQuery (store : List KVDoc) : List (List HMatch) → Except KVErr (List (List HMatch))
  | [] => .ok []
  | ds :: rest =>
    match hydrateAll store ds with
    | .ok ds2 =>
      match kvQuery store rest with
      | .ok rest2 => .ok (ds2 :: rest2)
      | .error e => .error e
    | .error e => .error e

/-! ## Lemmas: algebra of the augmented-matrix cosine -/

theorem sumSq_cons (a : ℝ) (l : List ℝ) : sumSq (a :: l) = a ^ 2 + sumSq l := by
  simp [sumSq]

theorem dotR_cons (a b : ℝ) (x y : List ℝ) :
    dotR (a :: x) (b :: y) = a * b + dotR x y := by
  simp [dotR]

theorem sumSq_nonneg (l : List ℝ) : 0 ≤ sumSq l := by
  induction l with
  | nil => simp [sumSq]
  | cons a xs ih => rw [sumSq_cons]; exact add_nonneg (sq_nonneg a) ih

theorem zipWith_mul_one_left (l : List ℝ) :
    List.zipWith (fun a b => a * b) (List.replicate l.length 1) l = l := by
  induction l with
  | nil => rfl
  | cons x xs ih =>
    simp only [List.length_cons, List.replicate_succ, List.zipWith_cons_cons,
      one_mul, ih]

theorem zipWith_mul_one_right (l : List ℝ) :
    List.zipWith (fun a b => a * b) l (List.replicate l.length 1) = l := by
  induction l with
  | nil => rfl
  | cons x xs ih =>
    simp only [List.length_cons, List.replicate_succ, List.zipWith_cons_cons,
      mul_one, ih]

theorem zipWith_mul_neg_two (x y : List ℝ) :
    (List.zipWith (fun a b => a * b) x (y.map (fun t => -2 * t))).sum =
      -2 * dotR x y := by
  induction x generalizing y with
  | nil => simp [dotR]
  | cons a xs ih =>
    cases y with
    | nil => simp [dotR]
    | cons b ys =>
      simp only [List.map_cons, List.zipWith_cons_cons, List.sum_cons, ih,
        dotR_cons]
      ring

theorem dot_ext (x y : List ℝ) (h : x.length = y.length) :
    dotR (_ext_A x) (_ext_B y) = sumSq y - 2 * dotR x y + sumSq x := by
  unfold dotR _ext_A _ext_B
  rw [List.zipWith_append _ _ _ _ _ (by simp [h]),
    List.zipWith_append _ _ _ _ _ (by simp [h]),
    List.sum_append, List.sum_append]
  have e1 : List.replicate x.length (1:ℝ) =
      List.replicate (y.map (fun t => t ^ 2)).length 1 := by simp [h]
  have e3 : List.replicate y.length (1:ℝ) =
      List.replicate (x.map (fun t => t ^ 2)).length 1 := by simp [h]
  rw [e1, zipWith_mul_one_left, e3, zipWith_mul_one_right, zipWith_mul_neg_two]
  simp only [sumSq, dotR]
  ring

theorem sumSq_sub_form (x y : List ℝ) (h : x.length = y.length) :
    sumSq (List.zipWith (fun a b => a - b) x y) =
      sumSq y - 2 * dotR x y + sumSq x := by
  induction x generalizing y with
  | nil =>
    cases y with
    | nil => simp [sumSq, dotR]
    | cons b ys => exact absurd h (by simp)
  | cons a xs ih =>
    cases y with
    | nil => exact absurd h (by simp)
    | cons b ys =>
      have h' : xs.length = ys.length := by simpa using h
      rw [List.zipWith_cons_cons, sumSq_cons, sumSq_cons, sumSq_cons,
        dotR_cons, ih ys h']
      ring

theorem sumSq_map_div (q : List ℝ) (s : ℝ) :
    sumSq (q.map (fun x => x / s)) = sumSq q / s ^ 2 := by
  induction q with
  | nil => simp [sumSq]
  | cons a xs ih =>
    rw [List.map_cons, sumSq_cons, sumSq_cons, ih, div_pow, div_add_div_same]

theorem sumSq_norm_eq_one (q : List ℝ) (hq : sumSq q ≠ 0) :
    sumSq (_norm q) = 1 := by
  unfold _norm
  rw [sumSq_map_div, Real.sq_sqrt (sumSq_nonneg q), div_self hq]

theorem score_eq_specCosine (q d : List ℝ) (hlen : q.length = d.length)
    (hq : sumSq q ≠ 0) (hd : sumSq d ≠ 0) : scoreOf q d = specCosine q d := by
  have hxy : (_norm q).length = (_norm d).length := by simp [_norm, hlen]
  have h1 := dot_ext (_norm q) (_norm d) hxy
  have h2 : 0 ≤ dotR (_ext_A (_norm q)) (_ext_B (_norm d)) := by
    rw [h1, ← sumSq_sub_form _ _ hxy]; exact sumSq_nonneg _
  unfold scoreOf _cosine specCosine
  rw [max_eq_left h2, h1, sumSq_norm_eq_one q hq, sumSq_norm_eq_one d hd]
  ring

/-! ## Claim C9 -/

/-- C9: for query and corpus rows of equal dimension with non-zero L2 norm,
the historical augmented-matrix computation
`1 - _cosine(_ext_A(_norm q), _ext_B(_norm d))` equals the direct cosine
similarity `dot(q-hat, d-hat)` of the normalised vectors: the two
formulations are behaviourally equivalent. -/
theorem augmented_matrix_equals_direct_cosine (q d : List ℝ)
    (hlen : q.length = d.length) (hq : sumSq q ≠ 0) (hd : sumSq d ≠ 0) :
    1 - _cosine (_ext_A (_norm q)) (_ext_B (_norm d)) = specCosine q d :=
  score_eq_specCosine q d hlen hq hd

/-- Witness for C9 at query `[3, 4]` and corpus row `[1, 0]`. -/
theorem augmented_matrix_equals_direct_cosine_witness :
    [(3:ℝ), 4].length = [(1:ℝ), 0].length ∧ sumSq [(3:ℝ), 4] ≠ 0 ∧
      sumSq [(1:ℝ), 0] ≠ 0 ∧
      1 - _cosine (_ext_A (_norm [(3:ℝ), 4])) (_ext_B (_norm [(1:ℝ), 0])) =
        specCosine [(3:ℝ), 4] [(1:ℝ), 0] :=
  ⟨rfl, by norm_num [sumSq], by norm_num [sumSq],
    augmented_matrix_equals_direct_cosine _ _ rfl (by norm_num [sumSq])
      (by norm_num [sumSq])⟩

/-! ## Claim C2 -/

/-- C2 counterexample: for the non-zero query `[1, 0]` and the non-zero
stored row `[-1, 0]` the emitted cosine score is `-1 < 0`, so the score is
not clipped to `[0, 1]` — the `clip(min=0)` of the source applies to the
squared distance, not to the score. -/
theorem cosine_score_clip_cex :
    sumSq [(1:ℝ), 0] ≠ 0 ∧ sumSq [(-1:ℝ), 0] ≠ 0 ∧
      scoreOf [(1:ℝ), 0] [(-1:ℝ), 0] < 0 := by
  refine ⟨by norm_num [sumSq], by norm_num [sumSq], ?_⟩
  have h1 : sumSq [(1:ℝ), 0] = 1 := by norm_num [sumSq]
  have h2 : sumSq [(-1:ℝ), 0] = 1 := by norm_num [sumSq]
  have hdot : dotR (_ext_A (_norm [(1:ℝ), 0])) (_ext_B (_norm [(-1:ℝ), 0])) = 4 := by
    unfold _norm _ext_A _ext_B dotR
    rw [h1, h2, Real.sqrt_one]
    norm_num [List.replicate]
  unfold scoreOf _cosine
  rw [hdot, max_eq_left (by norm_num : (0:ℝ) ≤ 4)]
  norm_num

/-- C2 amended: the emitted score equals the exact cosine similarity
`dot(q-hat, d-hat)` of the normalised vectors, with no clipping of the
score (the `min=0` clip acts on the non-negative squared distance and
never binds); in particular the score is negative exactly when the cosine
is. -/
theorem cosine_score_unclipped (q d : List ℝ) (hlen : q.length = d.length)
    (hq : sumSq q ≠ 0) (hd : sumSq d ≠ 0) : scoreOf q d = specCosine q d :=
  score_eq_specCosine q d hlen hq hd

/-- Witness for the amended C2 at query `[0, 1]` and stored row `[0, 2]`. -/
theorem cosine_score_unclipped_witness :
    [(0:ℝ), 1].length = [(0:ℝ), 2].length ∧ sumSq [(0:ℝ), 1] ≠ 0 ∧
      sumSq [(0:ℝ), 2] ≠ 0 ∧
      scoreOf [(0:ℝ), 1] [(0:ℝ), 2] = specCosine [(0:ℝ), 1] [(0:ℝ), 2] :=
  ⟨rfl, by norm_num [sumSq], by norm_num [sumSq],
    cosine_score_unclipped _ _ rfl (by norm_num [sumSq]) (by norm_num [sumSq])⟩

/-! ## Claim C1 -/

/-- C1 amended: every admissible result of `_get_sorted_top_k` on one
query row has exactly `min(top_k, N)` entries, with distances ascending,
hence emitted similarities `1 - dist` descending.  The tie order between
equal similarities is not part of the contract (see the counterexample). -/
theorem sorted_top_k_length_and_order (row : List ℚ) (k : ℕ) (idx : List ℕ)
    (dist : List ℚ) (h : _get_sorted_top_k (fun a b => a ≤ b) row k idx dist) :
    idx.length = min k row.length ∧ dist.length = min k row.length ∧
      dist.Chain' (fun a b => a ≤ b) ∧
      (dist.map (fun d => 1 - d)).Chain' (fun a b => b ≤ a) := by
  obtain ⟨hdist, hbr⟩ := h
  have hidxchain : idx.Chain' (fun i j => valAt row i ≤ valAt row j) := by
    by_cases hk : row.length ≤ k
    · rw [if_pos hk] at hbr
      obtain ⟨full, ⟨_, hchain⟩, hidx⟩ := hbr
      rw [hidx]
      exact hchain.take k
    · rw [if_neg hk] at hbr
      exact hbr.2
  have hlen : idx.length = min k row.length := by
    by_cases hk : row.length ≤ k
    · rw [if_pos hk] at hbr
      obtain ⟨full, ⟨hperm, _⟩, hidx⟩ := hbr
      have hfull : full.length = row.length := by
        simpa using hperm.length_eq
      rw [hidx, List.length_take, hfull]
    · rw [if_neg hk] at hbr
      obtain ⟨⟨part, hpart, hperm⟩, _⟩ := hbr
      rw [hperm.length_eq, hpart.1,
        Nat.min_eq_left (Nat.le_of_lt (Nat.lt_of_not_le hk))]
  have hdlen : dist.length = min k row.length := by
    rw [hdist, List.length_map, hlen]
  have hdchain : dist.Chain' (fun a b => a ≤ b) := by
    rw [hdist, List.chain'_map]
    exact hidxchain
  refine ⟨hlen, hdlen, hdchain, ?_⟩
  rw [List.chain'_map]
  exact hdchain.imp (fun a b hab => by linarith)

/-- Witness for the amended C1: corpus distances `[0, 1]` (similarities
`[1, 0]`), `top_k = 5 >= N = 2`, admissible output indices `[1, 0]`. -/
theorem sorted_top_k_length_and_order_witness :
    _get_sorted_top_k (fun a b => a ≤ b) [(0:ℚ), 1] 5 [0, 1] [0, 1] ∧
      ([0, 1] : List ℕ).length = min 5 [(0:ℚ), 1].length ∧
      ([(0:ℚ), 1] : List ℚ).length = min 5 [(0:ℚ), 1].length ∧
      ([(0:ℚ), 1] : List ℚ).Chain' (fun a b => a ≤ b) ∧
      (([(0:ℚ), 1] : List ℚ).map (fun d => 1 - d)).Chain' (fun a b => b ≤ a) := by
  have hrel : _get_sorted_top_k (fun a b => a ≤ b) [(0:ℚ), 1] 5 [0, 1] [0, 1] := by
    constructor
    · decide
    · rw [if_pos (by norm_num)]
      exact ⟨[0, 1], ⟨by decide,
        by norm_num [List.chain'_cons, List.chain'_singleton, valAt, List.getD]⟩, rfl⟩
  exact ⟨hrel, sorted_top_k_length_and_order _ _ _ _ hrel⟩

/-- C1 counterexample: on the distance row `[0, 0]` (two stored documents
with equal similarity to the query) and `top_k = 2`, the output with index
row `[1, 0]` is admissible for the numpy contract the source relies on
(`argsort` of default kind is not stable), and it breaks the tie in
descending index order — so ascending-index tie-breaking is not
guaranteed. -/
theorem sorted_top_k_tie_order_cex :
    _get_sorted_top_k (fun a b => a ≤ b) [(0:ℚ), 0] 2 [1, 0] [0, 0] ∧
      ¬ (List.zip [1, 0] ([(0:ℚ), 0])).Chain'
          (fun p q => p.2 = q.2 → p.1 < q.1) := by
  constructor
  · constructor
    · decide
    · rw [if_pos (by norm_num)]
      exact ⟨[1, 0], ⟨by decide,
        by norm_num [List.chain'_cons, List.chain'_singleton, valAt, List.getD]⟩, rfl⟩
  · norm_num [List.zip_cons_cons, List.chain'_cons]

/-! ## Lemmas: NaN propagation and stacking -/

theorem nmul_none_left (b : NanR) : nmul none b = none := by cases b <;> rfl

theorem nmul_none_right (a : NanR) : nmul a none = none := by cases a <;> rfl

theorem nadd_none_left (b : NanR) : nadd none b = none := by cases b <;> rfl

theorem nadd_none_right (a : NanR) : nadd a none = none := by cases a <;> rfl

theorem nsum_none (l : List NanR) (h : none ∈ l) : nsum l = none := by
  induction l with
  | nil => cases h
  | cons a t ih =>
    show nadd a (nsum t) = none
    rcases List.mem_cons.mp h with ha | ht
    · rw [← ha, nadd_none_left]
    · rw [ih ht, nadd_none_right]

theorem zipWith_nmul_none_left (x y : List NanR) (hx : none ∈ x)
    (hlen : x.length = y.length) : none ∈ List.zipWith nmul x y := by
  induction x generalizing y with
  | nil => cases hx
  | cons a t ih =>
    cases y with
    | nil => exact absurd hlen (by simp)
    | cons b s =>
      rw [List.zipWith_cons_cons]
      rcases List.mem_cons.mp hx with ha | ht
      · exact List.mem_cons.mpr (Or.inl (by rw [← ha, nmul_none_left]))
      · exact List.mem_cons.mpr (Or.inr (ih s ht (by simpa using hlen)))

theorem zipWith_nmul_none_right (x y : List NanR) (hy : none ∈ y)
    (hlen : x.length = y.length) : none ∈ List.zipWith nmul x y := by
  induction x generalizing y with
  | nil =>
    cases y with
    | nil => cases hy
    | cons b s => exact absurd hlen (by simp)
  | cons a t ih =>
    cases y with
    | nil => cases hy
    | cons b s =>
      rw [List.zipWith_cons_cons]
      rcases List.mem_cons.mp hy with hb | hs
      · exact List.mem_cons.mpr (Or.inl (by rw [← hb, nmul_none_right]))
      · exact List.mem_cons.mpr (Or.inr (ih s hs (by simpa using hlen)))

theorem normNan_zero (q : List ℝ) (h : sumSq q = 0) :
    normNan q = q.map (fun _ => none) := by
  simp [normNan, npDiv, h, Real.sqrt_zero]

theorem normNan_length (q : List ℝ) : (normNan q).length = q.length := by
  simp [normNan]

theorem extAN_length (a : List NanR) : (extAN a).length = 3 * a.length := by
  simp [extAN]; ring

theorem extBN_length (b : List NanR) : (extBN b).length = 3 * b.length := by
  simp [extBN]; ring

theorem npStack_ok (rows : List (List ℝ)) (n : ℕ)
    (hrows : ∀ r ∈ rows, r.length = n) (hne : rows ≠ []) :
    npStack rows = .ok rows := by
  cases rows with
  | nil => exact absurd rfl hne
  | cons r rs =>
    have hall : rs.all (fun s => s.length = r.length) = true := by
      rw [List.all_eq_true]
      intro s hs
      have h1 := hrows s (List.mem_cons_of_mem _ hs)
      have h2 := hrows r (List.mem_cons_self _ _)
      simp [h1, h2]
    simp [npStack, hall]

/-! ## Claim C6 -/

/-- C6 counterexample: searching one non-degenerate query against an empty
vector store raises the stacking error of `np.stack` (need at least one
array to stack) instead of returning an empty match list. -/
theorem empty_corpus_search_error_cex :
    searchDists (some [[(1:ℝ)]]) [] = .error NpError.stackEmpty := rfl

/-- C6 amended: only a missing (`None`) query batch is a no-op; an empty
vector store makes `search` raise the `np.stack` error for every query
batch, and an empty (non-`None`) query batch likewise raises rather than
returning an empty result. -/
theorem search_none_and_empty_behavior :
    (∀ corpus : List (List ℝ), searchDists none corpus = .ok none) ∧
    (∀ (qs corpus : List (List ℝ)), corpus = [] ∨ qs = [] →
      ∃ e, searchDists (some qs) corpus = .error e) := by
  constructor
  · intro corpus; rfl
  · intro qs corpus h
    cases qs with
    | nil => exact ⟨NpError.stackEmpty, rfl⟩
    | cons q qt =>
      have hc : corpus = [] := by
        rcases h with h | h
        · exact h
        · cases h
      subst hc
      cases hstack : npStack (q :: qt) with
      | error e => exact ⟨e, by simp [searchDists, hstack]⟩
      | ok a =>
        exact ⟨NpError.stackEmpty, by simp only [searchDists]; rw [hstack]; rfl⟩

/-- Witness for the amended C6: a `None` batch is a no-op, and one query
against the empty store errors. -/
theorem search_none_and_empty_behavior_witness :
    searchDists none [[(1:ℝ)]] = .ok none ∧
      ∃ e, searchDists (some [[(1:ℝ)]]) [] = .error e :=
  ⟨search_none_and_empty_behavior.1 [[(1:ℝ)]],
    search_none_and_empty_behavior.2 [[(1:ℝ)]] [] (Or.inl rfl)⟩

/-! ## Claim C7 -/

/-- C7 counterexample: for the zero-norm query `[0, 0]` against the corpus
`[[1, 0]]`, `search` does not fail with any error (no
`DegenerateVectorError` exists in the code): it completes and produces the
NaN distance for the query's single row. -/
theorem zero_norm_query_no_error_cex :
    searchDists (some [[(0:ℝ), 0]]) [[(1:ℝ), 0]] = .ok (some [[none]]) := by
  have h0 : sumSq [(0:ℝ), 0] = 0 := by norm_num [sumSq]
  have h1 : sumSq [(1:ℝ), 0] = 1 := by norm_num [sumSq]
  have hq : normNan [(0:ℝ), 0] = [none, none] := by
    simp [normNan, npDiv, h0, Real.sqrt_zero]
  have hd : normNan [(1:ℝ), 0] = [some 1, some 0] := by
    simp [normNan, npDiv, h1, Real.sqrt_one]
  have hdist : distN [(0:ℝ), 0] [(1:ℝ), 0] = none := by
    simp [distN, hq, hd, extAN, extBN, ndot, nsum, nadd, nmul, nclip0, nhalf,
      List.replicate]
  simp [searchDists, npStack, hdist]

theorem nanLe_trans : ∀ a b c : NanR, nanLe a b → nanLe b c → nanLe a c := by
  intro a b c hab hbc
  cases c with
  | none => cases a <;> trivial
  | some z =>
    cases b with
    | none => simp [nanLe] at hbc
    | some y =>
      cases a with
      | none => simp [nanLe] at hab
      | some x =>
        simp [nanLe] at hab hbc ⊢
        exact le_trans hab hbc

theorem sorted_top_k_dist_chain (row : List NanR) (k : ℕ) (idx : List ℕ)
    (dist : List NanR) (h : _get_sorted_top_k nanLe row k idx dist) :
    dist.Chain' nanLe := by
  obtain ⟨hdist, hbr⟩ := h
  by_cases hk : row.length ≤ k
  · rw [if_pos hk] at hbr
    obtain ⟨full, ⟨_, hchain⟩, hidx⟩ := hbr
    rw [hdist, hidx, List.chain'_map]
    exact hchain.take k
  · rw [if_neg hk] at hbr
    rw [hdist, List.chain'_map]
    exact hbr.2

/-- C7 amended: zero-norm rows are not excluded and raise no error — the
search completes with every query-corpus pair scored; any pair involving a
zero-norm row gets the NaN distance (`none`).  NaN distances sort last, so
in every admissible selection result the NaN-scored entries occupy only
the tail, after all real-valued distances, and whenever `top_k >= N`
every corpus index — NaN-scored ones included — is in the per-query
result; zero-norm queries thus produce NaN scores instead of failing. -/
theorem zero_norm_nan_propagation :
    (∀ (qs corpus : List (List ℝ)) (n m : ℕ), qs ≠ [] → corpus ≠ [] →
      (∀ r ∈ qs, r.length = n) → (∀ r ∈ corpus, r.length = m) →
      searchDists (some qs) corpus =
        .ok (some (qs.map (fun q => corpus.map (fun d => distN q d))))) ∧
    (∀ (q d : List ℝ), q.length = d.length → q ≠ [] →
      sumSq q = 0 ∨ sumSq d = 0 → distN q d = none) ∧
    (∀ (row : List NanR) (k : ℕ) (idx : List ℕ) (dist : List NanR),
      _get_sorted_top_k nanLe row k idx dist → row.length ≤ k →
      ∀ j, j < row.length → j ∈ idx) ∧
    (∀ (row : List NanR) (k : ℕ) (idx : List ℕ) (dist : List NanR),
      _get_sorted_top_k nanLe row k idx dist →
      ∀ (i j : ℕ), i ≤ j → j < dist.length →
        dist.getD i none = none → dist.getD j none = none) := by
  refine ⟨?_, ?_, ?_, ?_⟩
  · intro qs corpus n m hqs hcorpus hq hc
    simp [searchDists, npStack_ok qs n hq hqs, npStack_ok corpus m hc hcorpus]
  · intro q d hlen hq hcase
    have hd : d ≠ [] := by
      intro hnil
      apply hq
      apply List.eq_nil_of_length_eq_zero
      rw [hlen, hnil]
      rfl
    have hnd : ndot (extAN (normNan q)) (extBN (normNan d)) = none := by
      have hlens : (extAN (normNan q)).length = (extBN (normNan d)).length := by
        rw [extAN_length, extBN_length, normNan_length, normNan_length, hlen]
      rcases hcase with h0 | h0
      · apply nsum_none
        apply zipWith_nmul_none_left _ _ _ hlens
        have hmem : none ∈ normNan q := by
          rw [normNan_zero q h0]
          rcases List.exists_mem_of_ne_nil q hq with ⟨a, ha⟩
          exact List.mem_map_of_mem _ ha
        exact List.mem_append.mpr (Or.inl (List.mem_append.mpr (Or.inr hmem)))
      · apply nsum_none
        apply zipWith_nmul_none_right _ _ _ hlens
        have hmem : none ∈ (normNan d).map (fun x => nmul x x) := by
          rw [normNan_zero d h0]
          rcases List.exists_mem_of_ne_nil d hd with ⟨a, ha⟩
          have : nmul none none = none := rfl
          rw [List.map_map]
          exact List.mem_map.mpr ⟨a, ha, this⟩
        exact List.mem_append.mpr (Or.inl (List.mem_append.mpr (Or.inl hmem)))
    show nhalf (nclip0 (ndot _ _)) = none
    rw [hnd]
    rfl
  · intro row k idx dist h hk j hj
    obtain ⟨_, hbr⟩ := h
    rw [if_pos hk] at hbr
    obtain ⟨full, ⟨hperm, _⟩, hidx⟩ := hbr
    have hfl : full.length ≤ k := by
      rw [hperm.length_eq, List.length_range]
      exact hk
    rw [hidx, List.take_of_length_le hfl]
    exact (hperm.mem_iff).mpr (List.mem_range.mpr hj)
  · intro row k idx dist h i j hij hj hi
    have hp : List.Pairwise nanLe dist :=
      (@List.chain'_iff_pairwise NanR nanLe ⟨nanLe_trans⟩ dist).mp
        (sorted_top_k_dist_chain row k idx dist h)
    rcases Nat.lt_or_ge i j with hlt | hge
    · have hi' : i < dist.length := lt_trans hlt hj
      have hr := List.pairwise_iff_getElem.mp hp i j hi' hj hlt
      rw [List.getD_eq_getElem _ _ hi'] at hi
      rw [List.getD_eq_getElem _ _ hj]
      rw [hi] at hr
      cases hdj : dist[j] with
      | none => rfl
      | some x =>
        rw [hdj] at hr
        simp [nanLe] at hr
    · have hije : i = j := le_antisymm hij hge
      rw [← hije]
      exact hi

/-- Witness for the amended C7 at query `[0, 0]`, corpus `[[1, 0]]`, and a
singleton NaN row selected with `top_k = 1 = N`. -/
theorem zero_norm_nan_propagation_witness :
    searchDists (some [[(0:ℝ), 0]]) [[(1:ℝ), 0]] =
        .ok (some [[distN [(0:ℝ), 0] [(1:ℝ), 0]]]) ∧
      distN [(0:ℝ), 0] [(1:ℝ), 0] = none ∧ (0 : ℕ) ∈ ([0] : List ℕ) ∧
      ([none] : List NanR).getD 0 none = none := by
  have hrel : _get_sorted_top_k nanLe [(none : NanR)] 1 [0] [none] := by
    constructor
    · rfl
    · rw [if_pos (by norm_num)]
      exact ⟨[0], ⟨by decide, by simp⟩, rfl⟩
  refine ⟨?_, ?_, ?_, ?_⟩
  · exact zero_norm_nan_propagation.1 [[(0:ℝ), 0]] [[(1:ℝ), 0]] 2 2
      (by simp) (by simp) (by simp) (by simp)
  · exact zero_norm_nan_propagation.2.1 [(0:ℝ), 0] [(1:ℝ), 0] rfl (by simp)
      (Or.inl (by norm_num [sumSq]))
  · exact zero_norm_nan_propagation.2.2.1 [(none : NanR)] 1 [0] [none] hrel
      (by norm_num) 0 (by norm_num)
  · exact zero_norm_nan_propagation.2.2.2 [(none : NanR)] 1 [0] [none] hrel
      0 0 (le_refl 0) (by norm_num) rfl

/-! ## Lemmas: key-value hydration -/

theorem hydrateMatch_found (store : List KVDoc) (d : KVDoc) (m : HMatch)
    (hd : d ∈ store) (hpid : m.parentId = d.id)
    (hnodup : (store.map KVDoc.id).Nodup) :
    hydrateMatch store m = .ok { m with text := d.text } := by
  cases hfind : store.reverse.find? (fun t => t.id = m.parentId) with
  | none =>
    exfalso
    have := List.find?_eq_none.mp hfind d (List.mem_reverse.mpr hd)
    simp [hpid] at this
  | some x =>
    have hx1 : x.id = m.parentId := by simpa using List.find?_some hfind
    have hx2 : x ∈ store := List.mem_reverse.mp (List.mem_of_find?_eq_some hfind)
    have hxd : x = d := List.inj_on_of_nodup_map hnodup hx2 hd (by rw [hx1, hpid])
    rw [hxd] at hfind
    simp [hydrateMatch, kvGet, hfind]

theorem hydrateMatch_notFound (store : List KVDoc) (m : HMatch)
    (h : ∀ d ∈ store, d.id ≠ m.parentId) :
    hydrateMatch store m = .error (.notFound m.parentId) := by
  have hfind : store.reverse.find? (fun t => t.id = m.parentId) = none :=
    List.find?_eq_none.mpr (fun x hx => by
      simpa using h x (List.mem_reverse.mp hx))
  simp [hydrateMatch, kvGet, hfind]

theorem hydrateAll_error (store : List KVDoc) (ds : List HMatch) (m : HMatch)
    (hmem : m ∈ ds) (habs : ∀ d ∈ store, d.id ≠ m.parentId) :
    ∃ e, hydrateAll store ds = .error e := by
  induction ds with
  | nil => cases hmem
  | cons m0 t ih =>
    cases hm : hydrateMatch store m0 with
    | error e => exact ⟨e, by simp [hydrateAll, hm]⟩
    | ok m2 =>
      rcases List.mem_cons.mp hmem with heq | ht
      · exfalso
        have := hydrateMatch_notFound store m0 (heq ▸ habs)
        rw [hm] at this
        cases this
      · rcases ih ht with ⟨e, he⟩
        exact ⟨e, by simp [hydrateAll, hm, he]⟩

theorem kvQuery_error (store : List KVDoc) (docs : List (List HMatch))
    (ds : List HMatch) (m : HMatch) (hds : ds ∈ docs) (hmem : m ∈ ds)
    (habs : ∀ d ∈ store, d.id ≠ m.parentId) :
    ∃ e, kvQuery store docs = .error e := by
  induction docs with
  | nil => cases hds
  | cons ds0 rest ih =>
    cases ha : hydrateAll store ds0 with
    | error e => exact ⟨e, by simp [kvQuery, ha]⟩
    | ok _ =>
      rcases List.mem_cons.mp hds with heq | hrest
      · exfalso
        rcases hydrateAll_error store ds0 m (heq ▸ hmem) habs with ⟨e, he⟩
        rw [ha] at he
        cases he
      · rcases ih hrest with ⟨e, he⟩
        exact ⟨e, by simp [kvQuery, ha, he]⟩

/-! ## Claim C8 -/

/-- C8: hydration through `KeyValueIndexer.query` copies the stored
record's fields onto a match whose parent id is present (unique ids); an
absent parent id raises NotFound at the point lookup, and any absent
parent id anywhere in the request batch aborts the hydration of the whole
batch with an error (historical behaviour (a)). -/
theorem kv_hydration :
    (∀ (store : List KVDoc) (d : KVDoc) (m : HMatch),
      d ∈ store → m.parentId = d.id → (store.map KVDoc.id).Nodup →
      hydrateMatch store m = .ok { m with text := d.text }) ∧
    (∀ (store : List KVDoc) (m : HMatch),
      (∀ d ∈ store, d.id ≠ m.parentId) →
      hydrateMatch store m = .error (.notFound m.parentId)) ∧
    (∀ (store : List KVDoc) (docs : List (List HMatch)) (ds : List HMatch)
      (m : HMatch), ds ∈ docs → m ∈ ds →
      (∀ d ∈ store, d.id ≠ m.parentId) →
      ∃ e, kvQuery store docs = .error e) :=
  ⟨hydrateMatch_found, hydrateMatch_notFound,
    fun store docs ds m hds hmem habs => kvQuery_error store docs ds m hds hmem habs⟩

/-- Witness for C8 on the spec scenario: store `{"a": "foo"}, {"b": "bar"}`;
parent id `"a"` hydrates to text `"foo"`, parent id `"c"` raises NotFound,
and a batch containing the `"c"` match aborts with an error. -/
theorem kv_hydration_witness :
    hydrateMatch [⟨"a", "foo"⟩, ⟨"b", "bar"⟩] ⟨"a", ""⟩ = .ok ⟨"a", "foo"⟩ ∧
      hydrateMatch [⟨"a", "foo"⟩, ⟨"b", "bar"⟩] ⟨"c", ""⟩ =
        .error (.notFound "c") ∧
      ∃ e, kvQuery [⟨"a", "foo"⟩, ⟨"b", "bar"⟩] [[⟨"c", ""⟩]] = .error e := by
  refine ⟨?_, ?_, ?_⟩
  · exact kv_hydration.1 _ ⟨"a", "foo"⟩ ⟨"a", ""⟩ (by decide) rfl (by decide)
  · exact kv_hydration.2.1 _ ⟨"c", ""⟩ (by decide)
  · exact kv_hydration.2.2 _ _ [⟨"c", ""⟩] ⟨"c", ""⟩ (by decide) (by decide)
      (by decide)

/-! ## Lemmas: dictionary behaviour of the fusion table -/

theorem lookupPid_upsert1_self (w : ℚ) (acc : List FusedDoc) (m : RMatch) :
    lookupPid (upsert1 w acc m) m.parentId = some ⟨m.cosine * w, m⟩ := by
  induction acc with
  | nil => simp [upsert1, lookupPid]
  | cons a t ih =>
    by_cases ha : a.doc.parentId = m.parentId
    · simp [upsert1, lookupPid, List.any_cons, ha]
    · by_cases ht : t.any (fun f => f.doc.parentId = m.parentId)
      · have ih' : (t.map (fun f =>
            if f.doc.parentId = m.parentId then (⟨m.cosine * w, m⟩ : FusedDoc)
            else f)).find? (fun f => f.doc.parentId = m.parentId) =
            some ⟨m.cosine * w, m⟩ := by
          have := ih
          unfold upsert1 lookupPid at this
          rwa [if_pos ht] at this
        simp [upsert1, lookupPid, List.any_cons, ha, ht, ih']
      · have ih' : (t ++ [(⟨m.cosine * w, m⟩ : FusedDoc)]).find?
            (fun f => f.doc.parentId = m.parentId) =
            some ⟨m.cosine * w, m⟩ := by
          have := ih
          unfold upsert1 lookupPid at this
          rwa [if_neg (by simpa using ht)] at this
        simp [upsert1, lookupPid, List.any_cons, ha, ht, ih']

theorem find?_map_upsert1 (w : ℚ) (m : RMatch) (pid : String)
    (h : pid ≠ m.parentId) (t : List FusedDoc) :
    (t.map (fun f => if f.doc.parentId = m.parentId then
        (⟨m.cosine * w, m⟩ : FusedDoc) else f)).find?
        (fun f => f.doc.parentId = pid) =
      t.find? (fun f => f.doc.parentId = pid) := by
  induction t with
  | nil => rfl
  | cons b s ih =>
    by_cases hb : b.doc.parentId = m.parentId
    · rw [List.map_cons, if_pos hb,
        List.find?_cons_of_neg _ (by simp [Ne.symm h]),
        List.find?_cons_of_neg _ (by simp [hb, Ne.symm h]), ih]
    · by_cases hbp : b.doc.parentId = pid
      · rw [List.map_cons, if_neg hb,
          List.find?_cons_of_pos _ (by simp [hbp]),
          List.find?_cons_of_pos _ (by simp [hbp])]
      · rw [List.map_cons, if_neg hb,
          List.find?_cons_of_neg _ (by simp [hbp]),
          List.find?_cons_of_neg _ (by simp [hbp]), ih]

theorem find?_map_upsert2 (w : ℚ) (m : RMatch) (pid : String)
    (h : pid ≠ m.parentId) (t : List FusedDoc) :
    (t.map (fun f => if f.doc.parentId = m.parentId then
        (⟨f.relevance + m.cosine * w, f.doc⟩ : FusedDoc) else f)).find?
        (fun f => f.doc.parentId = pid) =
      t.find? (fun f => f.doc.parentId = pid) := by
  induction t with
  | nil => rfl
  | cons b s ih =>
    by_cases hb : b.doc.parentId = m.parentId
    · rw [List.map_cons, if_pos hb,
        List.find?_cons_of_neg _ (by simp [hb, Ne.symm h]),
        List.find?_cons_of_neg _ (by simp [hb, Ne.symm h]), ih]
    · by_cases hbp : b.doc.parentId = pid
      · rw [List.map_cons, if_neg hb,
          List.find?_cons_of_pos _ (by simp [hbp]),
          List.find?_cons_of_pos _ (by simp [hbp])]
      · rw [List.map_cons, if_neg hb,
          List.find?_cons_of_neg _ (by simp [hbp]),
          List.find?_cons_of_neg _ (by simp [hbp]), ih]

theorem find?_map_upsert2_self (w : ℚ) (m : RMatch) (t : List FusedDoc) :
    (t.map (fun f => if f.doc.parentId = m.parentId then
        (⟨f.relevance + m.cosine * w, f.doc⟩ : FusedDoc) else f)).find?
        (fun f => f.doc.parentId = m.parentId) =
      (t.find? (fun f => f.doc.parentId = m.parentId)).map
        (fun y => ⟨y.relevance + m.cosine * w, y.doc⟩) := by
  induction t with
  | nil => rfl
  | cons b s ih =>
    by_cases hb : b.doc.parentId = m.parentId
    · rw [List.map_cons, if_pos hb,
        List.find?_cons_of_pos _ (by simp [hb]),
        List.find?_cons_of_pos _ (by simp [hb])]
      rfl
    · rw [List.map_cons, if_neg hb,
        List.find?_cons_of_neg _ (by simp [hb]),
        List.find?_cons_of_neg _ (by simp [hb]), ih]

theorem lookupPid_upsert1_other (w : ℚ) (acc : List FusedDoc) (m : RMatch)
    (pid : String) (h : pid ≠ m.parentId) :
    lookupPid (upsert1 w acc m) pid = lookupPid acc pid := by
  unfold upsert1 lookupPid
  by_cases hany : acc.any (fun f => f.doc.parentId = m.parentId)
  · rw [if_pos hany]
    exact find?_map_upsert1 w m pid h acc
  · rw [if_neg hany, List.find?_append]
    simp [Ne.symm h]

theorem lookupPid_upsert2_self (w : ℚ) (acc : List FusedDoc) (m : RMatch) :
    lookupPid (upsert2 w acc m) m.parentId =
      match lookupPid acc m.parentId with
      | some f => some ⟨f.relevance + m.cosine * w, f.doc⟩
      | none => some ⟨m.cosine * w, m⟩ := by
  unfold upsert2 lookupPid
  by_cases hany : acc.any (fun f => f.doc.parentId = m.parentId)
  · rw [if_pos hany, find?_map_upsert2_self]
    cases hfind : acc.find? (fun f => f.doc.parentId = m.parentId) with
    | some y => rfl
    | none =>
      exfalso
      rcases List.any_eq_true.mp hany with ⟨x, hx, hpx⟩
      exact List.find?_eq_none.mp hfind x hx hpx
  · rw [if_neg hany, List.find?_append]
    have hnone : acc.find? (fun f => f.doc.parentId = m.parentId) = none :=
      List.find?_eq_none.mpr (fun x hx hpx =>
        hany (List.any_eq_true.mpr ⟨x, hx, hpx⟩))
    rw [hnone]
    simp

theorem lookupPid_upsert2_other (w : ℚ) (acc : List FusedDoc) (m : RMatch)
    (pid : String) (h : pid ≠ m.parentId) :
    lookupPid (upsert2 w acc m) pid = lookupPid acc pid := by
  unfold upsert2 lookupPid
  by_cases hany : acc.any (fun f => f.doc.parentId = m.parentId)
  · rw [if_pos hany]
    exact find?_map_upsert2 w m pid h acc
  · rw [if_neg hany, List.find?_append]
    simp [Ne.symm h]

theorem lastWith_cons (m : RMatch) (t : List RMatch) (pid : String) :
    lastWith (m :: t) pid =
      if m.parentId = pid then
        match lastWith t pid with
        | some x => some x
        | none => some m
      else lastWith t pid := by
  unfold lastWith
  by_cases hm : m.parentId = pid
  · rw [if_pos hm, List.filter_cons_of_pos (by simpa using hm)]
    cases hf : t.filter (fun x => x.parentId = pid) with
    | nil => rfl
    | cons y ys =>
      rw [List.getLast?_cons_cons]
      cases hg : (y :: ys).getLast? with
      | none => simp at hg
      | some z => rfl
  · rw [if_neg hm, List.filter_cons_of_neg (by simpa using hm)]

theorem firstWith_cons (m : RMatch) (t : List RMatch) (pid : String) :
    firstWith (m :: t) pid =
      if m.parentId = pid then some m else firstWith t pid := by
  unfold firstWith
  by_cases hm : m.parentId = pid
  · rw [if_pos hm, List.filter_cons_of_pos (by simpa using hm)]
    rfl
  · rw [if_neg hm, List.filter_cons_of_neg (by simpa using hm)]

theorem sumCos_cons (m : RMatch) (t : List RMatch) (pid : String) :
    sumCos (m :: t) pid =
      if m.parentId = pid then m.cosine + sumCos t pid else sumCos t pid := by
  unfold sumCos
  by_cases hm : m.parentId = pid
  · rw [if_pos hm, List.filter_cons_of_pos (by simpa using hm)]
    simp
  · rw [if_neg hm, List.filter_cons_of_neg (by simpa using hm)]

theorem lookupPid_fold1 (w : ℚ) (ms : List RMatch) (acc : List FusedDoc)
    (pid : String) :
    lookupPid (ms.foldl (upsert1 w) acc) pid =
      match lastWith ms pid with
      | some m => some ⟨m.cosine * w, m⟩
      | none => lookupPid acc pid := by
  induction ms generalizing acc with
  | nil => rfl
  | cons m t ih =>
    rw [List.foldl_cons, ih (upsert1 w acc m), lastWith_cons]
    by_cases hm : m.parentId = pid
    · subst hm
      rw [if_pos rfl]
      cases hl : lastWith t m.parentId with
      | some x => rfl
      | none => simp [lookupPid_upsert1_self]
    · rw [if_neg hm]
      cases hl : lastWith t pid with
      | some x => rfl
      | none => exact lookupPid_upsert1_other w acc m pid (Ne.symm hm)

theorem lookupPid_fold2 (w : ℚ) (ms : List RMatch) (acc : List FusedDoc)
    (pid : String) :
    lookupPid (ms.foldl (upsert2 w) acc) pid =
      match lookupPid acc pid with
      | some f => some ⟨f.relevance + sumCos ms pid * w, f.doc⟩
      | none =>
        match firstWith ms pid with
        | some m0 => some ⟨sumCos ms pid * w, m0⟩
        | none => none := by
  induction ms generalizing acc with
  | nil =>
    cases h : lookupPid acc pid with
    | some f =>
      simp only [List.foldl_nil, h]
      simp [sumCos]
    | none =>
      simp only [List.foldl_nil, h]
      rfl
  | cons m t ih =>
    rw [List.foldl_cons, ih (upsert2 w acc m), sumCos_cons, firstWith_cons]
    by_cases hm : m.parentId = pid
    · subst hm
      rw [lookupPid_upsert2_self, if_pos rfl, if_pos rfl]
      cases h : lookupPid acc m.parentId with
      | some f =>
        simp only [Option.some.injEq, FusedDoc.mk.injEq]
        exact ⟨by ring, trivial⟩
      | none =>
        simp only [Option.some.injEq, FusedDoc.mk.injEq]
        exact ⟨by ring, trivial⟩
    · rw [lookupPid_upsert2_other w acc m pid (Ne.symm hm), if_neg hm, if_neg hm]

/-! ## Claim C3 -/

theorem fused_relevance_formula (d1 d2 : QueryDoc) (pid : String) :
    lookupPid (fusedTable d1 d2) pid = fusedSpec d1 d2 pid := by
  unfold fusedTable fusedSpec
  rw [lookupPid_fold2, lookupPid_fold1]
  cases h1 : lastWith d1.matchList pid with
  | some m => rfl
  | none => rfl

/-- C3 counterexample: with branch-1 matches `[("a", 0.5), ("a", 0.3)]` at
weight 1 and an empty branch 2, the fused relevance of parent id `"a"` is
`0.3` — the last branch-1 occurrence replaces the first instead of
accumulating — and `0.3` differs from the claimed sum `0.5 + 0.3`. -/
theorem within_branch_accumulation_cex :
    lookupPid (fusedTable ⟨1, [⟨"a", 1/2, "x"⟩, ⟨"a", 3/10, "y"⟩]⟩ ⟨1, []⟩) "a" =
      some ⟨3/10, ⟨"a", 3/10, "y"⟩⟩ ∧
      (3 : ℚ)/10 ≠ 1/2 * 1 + 3/10 * 1 := by
  constructor
  · rw [fused_relevance_formula]
    simp [fusedSpec, lastWith, firstWith, sumCos, List.filter]
  · norm_num

/-- C3 amended: the fused entry of a parent id is `fusedSpec`: duplicates
inside branch 1 do not accumulate (the dict assignment of the branch-1
loop replaces the entry, so only the last branch-1 occurrence contributes
`cos * w1`, and its copy is the one retained), while every branch-2
occurrence accumulates `cos * w2`; a parent id absent from branch 1 enters
with the first branch-2 copy and the sum of all its branch-2
contributions.  In particular the cross-branch spec example (weights 1 and
1, one match with cosine 0.5 in each branch, same parent id) fuses to
relevance 1. -/
theorem fused_relevance_characterisation :
    (∀ (d1 d2 : QueryDoc) (pid : String),
      lookupPid (fusedTable d1 d2) pid = fusedSpec d1 d2 pid) ∧
    lookupPid (fusedTable ⟨1, [⟨"p", 1/2, "x"⟩]⟩ ⟨1, [⟨"p", 1/2, "y"⟩]⟩) "p" =
      some ⟨1, ⟨"p", 1/2, "x"⟩⟩ :=
  ⟨fused_relevance_formula, by
    rw [fused_relevance_formula]
    simp [fusedSpec, lastWith, firstWith, sumCos, List.filter]
    norm_num⟩

/-! ## Lemmas: keys of the fusion table, permutation of the sort -/

theorem mem_keysOf_any (acc : List FusedDoc) (pid : String) :
    acc.any (fun f => f.doc.parentId = pid) = true ↔ pid ∈ keysOf acc := by
  rw [List.any_eq_true]
  unfold keysOf
  simp [List.mem_map, eq_comm]

theorem keysOf_upsert1 (w : ℚ) (acc : List FusedDoc) (m : RMatch) :
    keysOf (upsert1 w acc m) =
      if acc.any (fun f => f.doc.parentId = m.parentId) then keysOf acc
      else keysOf acc ++ [m.parentId] := by
  unfold upsert1 keysOf
  by_cases hany : acc.any (fun f => f.doc.parentId = m.parentId)
  · rw [if_pos hany, if_pos hany, List.map_map]
    apply List.map_congr_left
    intro x _
    by_cases hxp : x.doc.parentId = m.parentId
    · simp [hxp]
    · simp [hxp]
  · rw [if_neg hany, if_neg hany, List.map_append]
    rfl

theorem keysOf_upsert2 (w : ℚ) (acc : List FusedDoc) (m : RMatch) :
    keysOf (upsert2 w acc m) =
      if acc.any (fun f => f.doc.parentId = m.parentId) then keysOf acc
      else keysOf acc ++ [m.parentId] := by
  unfold upsert2 keysOf
  by_cases hany : acc.any (fun f => f.doc.parentId = m.parentId)
  · rw [if_pos hany, if_pos hany, List.map_map]
    apply List.map_congr_left
    intro x _
    by_cases hxp : x.doc.parentId = m.parentId
    · simp [hxp]
    · simp [hxp]
  · rw [if_neg hany, if_neg hany, List.map_append]
    rfl

theorem keys_step_upsert1 (w : ℚ) (acc : List FusedDoc) (m : RMatch)
    (hnd : (keysOf acc).Nodup) :
    (keysOf (upsert1 w acc m)).Nodup ∧
      ∀ pid, pid ∈ keysOf (upsert1 w acc m) ↔
        pid = m.parentId ∨ pid ∈ keysOf acc := by
  rw [keysOf_upsert1]
  by_cases hany : acc.any (fun f => f.doc.parentId = m.parentId)
  · rw [if_pos hany]
    have hin : m.parentId ∈ keysOf acc := (mem_keysOf_any acc m.parentId).mp hany
    exact ⟨hnd, fun pid =>
      ⟨fun h => Or.inr h, fun h => h.elim (fun e => e ▸ hin) id⟩⟩
  · rw [if_neg hany]
    have hnin : m.parentId ∉ keysOf acc := fun hmem =>
      hany ((mem_keysOf_any acc m.parentId).mpr hmem)
    constructor
    · simp [List.nodup_append, hnd, hnin]
    · intro pid
      simp [List.mem_append, or_comm]

theorem keys_step_upsert2 (w : ℚ) (acc : List FusedDoc) (m : RMatch)
    (hnd : (keysOf acc).Nodup) :
    (keysOf (upsert2 w acc m)).Nodup ∧
      ∀ pid, pid ∈ keysOf (upsert2 w acc m) ↔
        pid = m.parentId ∨ pid ∈ keysOf acc := by
  rw [keysOf_upsert2]
  by_cases hany : acc.any (fun f => f.doc.parentId = m.parentId)
  · rw [if_pos hany]
    have hin : m.parentId ∈ keysOf acc := (mem_keysOf_any acc m.parentId).mp hany
    exact ⟨hnd, fun pid =>
      ⟨fun h => Or.inr h, fun h => h.elim (fun e => e ▸ hin) id⟩⟩
  · rw [if_neg hany]
    have hnin : m.parentId ∉ keysOf acc := fun hmem =>
      hany ((mem_keysOf_any acc m.parentId).mpr hmem)
    constructor
    · simp [List.nodup_append, hnd, hnin]
    · intro pid
      simp [List.mem_append, or_comm]

theorem keys_fold1 (w : ℚ) (ms : List RMatch) (acc : List FusedDoc)
    (hnd : (keysOf acc).Nodup) :
    (keysOf (ms.foldl (upsert1 w) acc)).Nodup ∧
      ∀ pid, pid ∈ keysOf (ms.foldl (upsert1 w) acc) ↔
        pid ∈ parentIds ms ∨ pid ∈ keysOf acc := by
  induction ms generalizing acc with
  | nil => exact ⟨hnd, by simp [parentIds]⟩
  | cons m t ih =>
    rw [List.foldl_cons]
    obtain ⟨hnd1, hmem1⟩ := keys_step_upsert1 w acc m hnd
    obtain ⟨h1, h2⟩ := ih (upsert1 w acc m) hnd1
    refine ⟨h1, fun pid => ?_⟩
    rw [h2, hmem1]
    simp only [parentIds, List.map_cons, List.mem_cons]
    tauto

theorem keys_fold2 (w : ℚ) (ms : List RMatch) (acc : List FusedDoc)
    (hnd : (keysOf acc).Nodup) :
    (keysOf (ms.foldl (upsert2 w) acc)).Nodup ∧
      ∀ pid, pid ∈ keysOf (ms.foldl (upsert2 w) acc) ↔
        pid ∈ parentIds ms ∨ pid ∈ keysOf acc := by
  induction ms generalizing acc with
  | nil => exact ⟨hnd, by simp [parentIds]⟩
  | cons m t ih =>
    rw [List.foldl_cons]
    obtain ⟨hnd1, hmem1⟩ := keys_step_upsert2 w acc m hnd
    obtain ⟨h1, h2⟩ := ih (upsert2 w acc m) hnd1
    refine ⟨h1, fun pid => ?_⟩
    rw [h2, hmem1]
    simp only [parentIds, List.map_cons, List.mem_cons]
    tauto

theorem table_keys (d1 d2 : QueryDoc) :
    (keysOf (fusedTable d1 d2)).Nodup ∧
      ∀ pid, pid ∈ keysOf (fusedTable d1 d2) ↔
        pid ∈ parentIds d1.matchList ∨ pid ∈ parentIds d2.matchList := by
  unfold fusedTable
  obtain ⟨h1, h2⟩ := keys_fold1 d1.weight d1.matchList [] (by simp [keysOf])
  obtain ⟨g1, g2⟩ :=
    keys_fold2 d2.weight d2.matchList (d1.matchList.foldl (upsert1 d1.weight) []) h1
  refine ⟨g1, fun pid => ?_⟩
  rw [g2, h2]
  simp only [keysOf, List.map_nil, List.not_mem_nil, or_false]
  tauto

theorem insertDesc_perm (f : FusedDoc) (l : List FusedDoc) :
    (insertDesc f l).Perm (f :: l) := by
  induction l with
  | nil => exact List.Perm.refl _
  | cons g gs ih =>
    unfold insertDesc
    by_cases h : f.relevance < g.relevance
    · rw [if_pos h]
      exact (ih.cons g).trans (List.Perm.swap f g gs)
    · rw [if_neg h]

theorem sortDesc_perm (l : List FusedDoc) : (sortDesc l).Perm l := by
  induction l with
  | nil => exact List.Perm.refl _
  | cons x t ih =>
    show (insertDesc x (sortDesc t)).Perm (x :: t)
    exact (insertDesc_perm x (sortDesc t)).trans (ih.cons x)

/-! ## Claim C4 -/

/-- C4: for every pair of branch query documents and every `top_k >= 1`,
the per-query fused output of `rank` has no two matches with the same
parent identifier, and its length is `min(top_k, number of distinct parent
identifiers seen across the branches)`. -/
theorem fusion_output_unique_and_sized (d1 d2 : QueryDoc) (k : ℤ)
    (hk : 1 ≤ k) :
    (keysOf (fuseQuery d1 d2 k)).Nodup ∧
      (fuseQuery d1 d2 k).length =
        min k.toNat ((parentIds (d1.matchList ++ d2.matchList)).dedup.length) := by
  obtain ⟨hnd, hmem⟩ := table_keys d1 d2
  have hperm : (sortDesc (fusedTable d1 d2)).Perm (fusedTable d1 d2) :=
    sortDesc_perm _
  have hkperm : (keysOf (sortDesc (fusedTable d1 d2))).Perm
      (keysOf (fusedTable d1 d2)) := hperm.map _
  have hfq : fuseQuery d1 d2 k = (sortDesc (fusedTable d1 d2)).take k.toNat := by
    unfold fuseQuery pySlice
    rw [if_pos (by omega : (0:ℤ) ≤ k)]
  constructor
  · rw [hfq]
    have hmt : keysOf ((sortDesc (fusedTable d1 d2)).take k.toNat) =
        (keysOf (sortDesc (fusedTable d1 d2))).take k.toNat := by
      unfold keysOf
      exact List.map_take _ _ _
    rw [hmt]
    exact List.Nodup.sublist (List.take_sublist _ _) (hkperm.nodup_iff.mpr hnd)
  · rw [hfq, List.length_take, hperm.length_eq]
    have h2 : (fusedTable d1 d2).length = (keysOf (fusedTable d1 d2)).length := by
      unfold keysOf
      rw [List.length_map]
    have h3 : (keysOf (fusedTable d1 d2)).Perm
        ((parentIds (d1.matchList ++ d2.matchList)).dedup) := by
      rw [List.perm_ext_iff_of_nodup hnd (List.nodup_dedup _)]
      intro a
      rw [List.mem_dedup, hmem a]
      simp [parentIds]
    rw [h2, h3.length_eq]

/-- Witness for C4 with one single-match branch per side and `top_k = 1`. -/
theorem fusion_output_unique_and_sized_witness :
    (1 : ℤ) ≤ 1 ∧
      ((keysOf (fuseQuery ⟨1, [⟨"a", 1/2, "x"⟩]⟩ ⟨1, [⟨"b", 1/2, "y"⟩]⟩ 1)).Nodup ∧
        (fuseQuery ⟨1, [⟨"a", 1/2, "x"⟩]⟩ ⟨1, [⟨"b", 1/2, "y"⟩]⟩ 1).length =
          min (1 : ℤ).toNat
            ((parentIds ((⟨1, [⟨"a", 1/2, "x"⟩]⟩ : QueryDoc).matchList ++
              (⟨1, [⟨"b", 1/2, "y"⟩]⟩ : QueryDoc).matchList)).dedup.length)) :=
  ⟨le_refl 1, fusion_output_unique_and_sized _ _ 1 (le_refl 1)⟩

/-! ## Lemmas: the zipped branch tuples of `rank` -/

theorem zipStar_pair (b1 b2 : List QueryDoc) :
    zipStar [b1, b2] = (b1.zip b2).map (fun p => [p.1, p.2]) := by
  unfold zipStar
  apply List.ext_getElem
  · simp [List.length_zip]
  · intro i h1 h2
    have hb : i < b1.length ⊓ b2.length := by
      simpa [List.length_zip] using h2
    have hb1 : i < b1.length := lt_of_lt_of_le hb inf_le_left
    have hb2 : i < b2.length := lt_of_lt_of_le hb inf_le_right
    simp only [List.getElem_map, List.getElem_range, List.getElem_zip,
      List.map_cons, List.map_nil]
    rw [List.getD_eq_getElem b1 _ hb1, List.getD_eq_getElem b2 _ hb2]

theorem rankLoop_pairs (k : ℤ) (ps : List (QueryDoc × QueryDoc)) :
    rankLoop k (ps.map (fun p => [p.1, p.2])) =
      .ok (ps.map (fun p => fuseQuery p.1 p.2 k)) := by
  induction ps with
  | nil => rfl
  | cons p t ih => simp [rankLoop, ih]

theorem rank_pair (b1 b2 : List QueryDoc) (k : ℤ) :
    rank [b1, b2] k = .ok ((b1.zip b2).map (fun p => fuseQuery p.1 p.2 k)) := by
  simp only [rank]
  rw [zipStar_pair, rankLoop_pairs]

theorem zipStar_elem_length (dm : List (List QueryDoc)) (t : List QueryDoc)
    (ht : t ∈ zipStar dm) : t.length = dm.length := by
  unfold zipStar at ht
  cases dm with
  | nil => cases ht
  | cons l0 rest =>
    rcases List.mem_map.mp ht with ⟨i, _, rfl⟩
    simp

theorem rankLoop_unpack (k : ℤ) (t : List QueryDoc) (ts : List (List QueryDoc))
    (h : t.length ≠ 2) : rankLoop k (t :: ts) = .error .unpack := by
  cases t with
  | nil => rfl
  | cons a t1 =>
    cases t1 with
    | nil => rfl
    | cons b t2 =>
      cases t2 with
      | nil => exact absurd rfl h
      | cons c t3 => rfl

/-! ## Claim C5 -/

/-- C5 counterexample: a `docs_matrix` with a single (non-empty) branch
makes `rank` fail with the tuple-unpacking `ValueError` of
`for d_mod1, d_mod2 in zip(*docs_matrix)` instead of fusing `N = 1`
branches. -/
theorem rank_single_branch_error_cex :
    rank [[(⟨1, [⟨"a", 1/2, "x"⟩]⟩ : QueryDoc)]] 3 = .error .unpack := rfl

/-- C5 amended: `rank` merges exactly two parallel weighted match lists
per query; with two branches it fuses the zipped query pairs, and for any
other branch count that produces at least one zipped tuple the loop
raises the unpacking error. -/
theorem rank_requires_exactly_two_branches :
    (∀ (b1 b2 : List QueryDoc) (k : ℤ),
      rank [b1, b2] k = .ok ((b1.zip b2).map (fun p => fuseQuery p.1 p.2 k))) ∧
    (∀ (dm : List (List QueryDoc)) (k : ℤ), dm.length ≠ 2 → zipStar dm ≠ [] →
      rank dm k = .error .unpack) := by
  refine ⟨rank_pair, ?_⟩
  intro dm k hlen hne
  cases hz : zipStar dm with
  | nil => exact absurd hz hne
  | cons t ts =>
    have ht : t.length = dm.length :=
      zipStar_elem_length dm t (hz ▸ List.mem_cons_self t ts)
    simp only [rank, hz]
    exact rankLoop_unpack k t ts (by rw [ht]; exact hlen)

/-- Witness for the amended C5: two one-query branches fuse; one one-query
branch errors. -/
theorem rank_requires_exactly_two_branches_witness :
    rank [[(⟨1, []⟩ : QueryDoc)], [⟨1, []⟩]] 3 =
        .ok ((([(⟨1, []⟩ : QueryDoc)]).zip [(⟨1, []⟩ : QueryDoc)]).map
          (fun p => fuseQuery p.1 p.2 3)) ∧
      rank [[(⟨1, []⟩ : QueryDoc)]] 3 = .error .unpack :=
  ⟨rank_requires_exactly_two_branches.1 _ _ 3,
    rank_requires_exactly_two_branches.2 [[⟨1, []⟩]] 3 (by norm_num)
      (by simp [zipStar])⟩

/-! ## Claim C10 -/

/-- C10 counterexample: a fusion request with `top_k = 0 <= 0` is not
rejected — no `InvalidParameter` check exists — and the fusion runs to
completion, returning an empty truncated list. -/
theorem top_k_zero_not_rejected_cex :
    rank [[(⟨1, [⟨"a", 1/2, "x"⟩]⟩ : QueryDoc)], [⟨1, [⟨"a", 1/2, "y"⟩]⟩]] 0 =
      .ok [[]] := rfl

/-- C10 amended: no parameter validation exists anywhere: with
`top_k <= 0` the fusion still completes normally (Python slicing then
truncates to empty, or drops elements from the end for negative values),
and a `top_k` of `0` reaching the selection stage yields an empty index
row rather than an error; weights, carried inside the branch documents,
are likewise never checked. -/
theorem parameters_not_validated :
    (∀ (b1 b2 : List QueryDoc) (k : ℤ), k ≤ 0 →
      ∃ res, rank [b1, b2] k = .ok res) ∧
    (∀ (row : List ℚ) (idx : List ℕ) (dist : List ℚ),
      _get_sorted_top_k (fun a b => a ≤ b) row 0 idx dist → idx = []) := by
  constructor
  · intro b1 b2 k _
    exact ⟨_, rank_pair b1 b2 k⟩
  · intro row idx dist h
    obtain ⟨_, hbr⟩ := h
    by_cases hk : row.length ≤ 0
    · rw [if_pos hk] at hbr
      obtain ⟨full, _, hidx⟩ := hbr
      rw [hidx, List.take_zero]
    · rw [if_neg hk] at hbr
      obtain ⟨⟨part, hpart, hperm⟩, _⟩ := hbr
      have hlen : idx.length = 0 := by rw [hperm.length_eq, hpart.1]
      exact List.eq_nil_of_length_eq_zero hlen

/-- Witness for the amended C10 at `top_k = 0`. -/
theorem parameters_not_validated_witness :
    (∃ res, rank [[(⟨1, []⟩ : QueryDoc)], [⟨1, []⟩]] 0 = .ok res) ∧
      ([] : List ℕ) = [] := by
  have hrel : _get_sorted_top_k (fun a b => a ≤ b) [(5:ℚ)] 0 [] [] := by
    refine ⟨rfl, ?_⟩
    rw [if_neg (by norm_num)]
    exact ⟨⟨[], ⟨rfl, List.nodup_nil, by simp, by simp⟩, List.Perm.refl _⟩,
      List.chain'_nil⟩
  exact ⟨parameters_not_validated.1 [⟨1, []⟩] [⟨1, []⟩] 0 le_rfl,
    parameters_not_validated.2 [(5:ℚ)] [] [] hrel⟩

end LegalQA
